import Mathlib

/-!
Shallow embedding of the ModuloX distributed coordination layer
(circuit breaker, rate limiter, retry, state store, workflows,
cluster scheduling, node agent registry) together with theorems
checking the natural-language specification against the code.

Conventions of the embedding:
* Go `time.Time` / `time.Duration` values are modelled as `Int`
  (nanosecond counts); `time.Since(x)` at instant `now` is `now - x`.
* Go `float64` quantities (token counts, load factors, backoff factors)
  are modelled as `ℚ`; the conversion `time.Duration(float64(d) * f)`
  truncates to an integer, modelled as `Int.floor` (the quantities
  involved are nonnegative, where floor and Go's truncation agree).
* Go errors are modelled as `String` (the repo's sentinel errors are
  string-backed: `ReliabilityError("circuit breaker is open")`), or a
  type with decidable equality where the code only compares errors.
* Mutating methods become functions from the receiver state to the
  updated state, with the current instant passed explicitly.
-/

namespace ModuloX

/-! ### Reliability: circuit breaker (src/pkg/reliability/circuit_breaker.go) -/

/-- CircuitState: Closed (normal), Open (reject), HalfOpen (probing). -/
inductive CircuitState where
  | Closed
  | Open
  | HalfOpen
deriving DecidableEq, Repr

/-- The circuit breaker record: `state`, `failureCount`, `failureThreshold`,
`resetTimeout`, `lastFailure` (mutex dropped; times in nanoseconds). -/
structure CircuitBreaker where
  state : CircuitState
  failureCount : Int
  failureThreshold : Int
  resetTimeout : Int
  lastFailure : Int
deriving DecidableEq, Repr

/-- NewCircuitBreaker: starts Closed with zero failure count (the Go zero
values of `failureCount` and `lastFailure`). -/
def newCircuitBreaker (failureThreshold resetTimeout : Int) : CircuitBreaker :=
  { state := .Closed
    failureCount := 0
    failureThreshold := failureThreshold
    resetTimeout := resetTimeout
    lastFailure := 0 }

/-- AllowRequest at instant `now`: Closed and HalfOpen always allow; Open
allows (and moves to HalfOpen) exactly when `time.Since(lastFailure)`
exceeds `resetTimeout`. Returns the boolean and the updated breaker. -/
def allowRequest (cb : CircuitBreaker) (now : Int) : Bool × CircuitBreaker :=
  match cb.state with
  | .Closed => (true, cb)
  | .Open =>
      if now - cb.lastFailure > cb.resetTimeout then
        (true, { cb with state := .HalfOpen })
      else
        (false, cb)
  | .HalfOpen => (true, cb)

/-- RecordResult at instant `now`; `failed = true` models a non-nil error.
On failure: increment the count, stamp `lastFailure`, and open the circuit
if the state was HalfOpen or the new count reached the threshold. On
success: a HalfOpen breaker closes and resets the count; otherwise nothing. -/
def recordResult (cb : CircuitBreaker) (failed : Bool) (now : Int) : CircuitBreaker :=
  if failed then
    let cb1 := { cb with failureCount := cb.failureCount + 1, lastFailure := now }
    if cb1.state = .HalfOpen ∨ cb1.failureCount ≥ cb1.failureThreshold then
      { cb1 with state := .Open }
    else
      cb1
  else
    if cb.state = .HalfOpen then
      { cb with state := .Closed, failureCount := 0 }
    else
      cb

/-- One observable step of the breaker: an `AllowRequest` call or a
`RecordResult` call, each at an explicit instant. -/
inductive CBStep where
  | allow (now : Int)
  | record (failed : Bool) (now : Int)

/-- Apply one step to the breaker state. -/
def cbStep (cb : CircuitBreaker) : CBStep → CircuitBreaker
  | .allow now => (allowRequest cb now).2
  | .record failed now => recordResult cb failed now

/-- States reachable from `newCircuitBreaker th t` by AllowRequest and
RecordResult calls. -/
inductive CBReachable (th t : Int) : CircuitBreaker → Prop where
  | init : CBReachable th t (newCircuitBreaker th t)
  | step {cb : CircuitBreaker} (h : CBReachable th t cb) (s : CBStep) :
      CBReachable th t (cbStep cb s)

/-- Execute(fn) at instant `now`, where `fnResult` is the error `fn` would
return (`none` = nil). Returns the error Execute returns, how many times
`fn` was invoked, and the updated breaker. `ErrCircuitOpen` is the
string-backed sentinel `"circuit breaker is open"`. -/
def errCircuitOpen : String := "circuit breaker is open"

/-- Execute: consult AllowRequest; if disallowed return `ErrCircuitOpen`
without invoking `fn`; otherwise invoke `fn` once, record the outcome,
and return `fn`'s error verbatim. -/
def cbExecute (cb : CircuitBreaker) (now : Int) (fnResult : Option String) :
    Option String × Nat × CircuitBreaker :=
  let (allowed, cb1) := allowRequest cb now
  if allowed then
    (fnResult, 1, recordResult cb1 fnResult.isSome now)
  else
    (some errCircuitOpen, 0, cb1)

/-! ### Reliability: rate limiter (src/pkg/reliability/rate_limiter.go) -/

/-- Token bucket: `rate` (tokens per second), `bucketSize`, fractional
`tokens`; `lastRefill` is folded into the `elapsed` argument of `rlAllow`. -/
structure RateLimiter where
  rate : ℚ
  bucketSize : Int
  tokens : ℚ
deriving DecidableEq, Repr

/-- NewRateLimiter: the bucket starts full. -/
def newRateLimiter (rate : ℚ) (bucketSize : Int) : RateLimiter :=
  { rate := rate, bucketSize := bucketSize, tokens := (bucketSize : ℚ) }

/-- The file's own `min(a, b float64)` helper. -/
def minFloat (a b : ℚ) : ℚ :=
  if a < b then a else b

/-- Allow, with `elapsed` seconds since the last refill: first refill
`tokens = min(bucketSize, tokens + elapsed*rate)`, then consume one token
if at least one is present. -/
def rlAllow (rl : RateLimiter) (elapsed : ℚ) : Bool × RateLimiter :=
  let refilled := minFloat ((rl.bucketSize : ℚ)) (rl.tokens + elapsed * rl.rate)
  if refilled ≥ 1 then
    (true, { rl with tokens := refilled - 1 })
  else
    (false, { rl with tokens := refilled })

/-- The outcomes of `n` back-to-back Allow calls with no time elapsing. -/
def rlAllowRun (rl : RateLimiter) : Nat → List Bool
  | 0 => []
  | n + 1 =>
      let (b, rl') := rlAllow rl 0
      b :: rlAllowRun rl' n

/-! ### Reliability: retry with backoff (retry source file, package reliability) -/

/-- RetryConfig: `MaxAttempts`, `InitialDelay`, `MaxDelay` (durations in
nanoseconds), `BackoffFactor` (float), `RetryableErrors` (allow-list,
compared by equality). -/
structure RetryConfig (ε : Type) where
  maxAttempts : Int
  initialDelay : Int
  maxDelay : Int
  backoffFactor : ℚ
  retryableErrors : List ε

/-- isRetryable: an empty allow-list retries everything; otherwise the
error must equal one of the listed errors. -/
def isRetryable {ε : Type} [DecidableEq ε] (err : ε) (retryableErrors : List ε) : Bool :=
  if retryableErrors.length = 0 then true
  else retryableErrors.any (fun r => err == r)

/-- The backoff update performed after each sleep:
`delay = time.Duration(float64(delay) * BackoffFactor)` capped at
`MaxDelay` (the float-to-Duration conversion truncates; delays are
nonnegative, so truncation is `Int.floor`). -/
def nextDelay (bf : ℚ) (maxD : Int) (delay : Int) : Int :=
  min (Int.floor ((delay : ℚ) * bf)) maxD

/-- The retry loop. `fn i` is the error of the i-th invocation (1-based,
`none` = success); `fuel` is the number of attempts still available
(initially `MaxAttempts`). Returns the error Retry returns, the number of
invocations of `fn`, and the list of delays slept between attempts. -/
def retryGo {ε : Type} [DecidableEq ε] (fn : Nat → Option ε) (retryableErrors : List ε)
    (bf : ℚ) (maxD : Int) : Nat → Nat → Int → Option ε × Nat × List Int
  | 0, _, _ => (none, 0, [])
  | fuel + 1, attempt, delay =>
      match fn attempt with
      | none => (none, 1, [])
      | some e =>
          if ¬ isRetryable e retryableErrors then (some e, 1, [])
          else if fuel = 0 then (some e, 1, [])
          else
            let r := retryGo fn retryableErrors bf maxD fuel (attempt + 1) (nextDelay bf maxD delay)
            (r.1, r.2.1 + 1, delay :: r.2.2)

/-- Retry(ctx, fn, config) with an un-cancelled context: run the loop
`for attempt := 1; attempt <= MaxAttempts` (so a non-positive
`MaxAttempts` performs no invocation and returns nil). -/
def retry {ε : Type} [DecidableEq ε] (fn : Nat → Option ε) (cfg : RetryConfig ε) :
    Option ε × Nat × List Int :=
  retryGo fn cfg.retryableErrors cfg.backoffFactor cfg.maxDelay cfg.maxAttempts.toNat 1 cfg.initialDelay

/-- The sequence of the first `n` backoff delays: `InitialDelay`, then
repeated `nextDelay` updates. -/
def delaySeq (bf : ℚ) (maxD : Int) : Int → Nat → List Int
  | _, 0 => []
  | init, n + 1 => init :: delaySeq bf maxD (nextDelay bf maxD init) n

/-! ### Messaging: state store (StateStore source file, package communication) -/

/-- StateEntry: opaque `value` plus an `int64` version (`UpdatedAt`
dropped: no claim mentions it). -/
structure StateEntry (α : Type) where
  value : α
  version : Int
deriving DecidableEq, Repr

/-- The `states` map of a StateStore. -/
def StoreMap (α : Type) : Type := String → Option (StateEntry α)

/-- The empty store created by NewStateStore. -/
def emptyStore (α : Type) : StoreMap α := fun _ => none

/-- Set(key, value): version 1 on first write to the key, previous
version + 1 afterwards. -/
def stateSet {α : Type} (m : StoreMap α) (key : String) (value : α) : StoreMap α :=
  let version : Int :=
    match m key with
    | some e => e.version + 1
    | none => 1
  fun k => if k = key then some { value := value, version := version } else m k

/-- Get(key): the entry and whether it was found (`Option` models the
comma-ok pair). -/
def stateGet {α : Type} (m : StoreMap α) (key : String) : Option (StateEntry α) :=
  m key

/-- Apply a sequence of Set calls (key, value) in order. -/
def applySets {α : Type} (m : StoreMap α) (ops : List (String × α)) : StoreMap α :=
  ops.foldl (fun acc p => stateSet acc p.1 p.2) m

/-- Number of Set calls addressed to `k` in the sequence. -/
def countWrites {α : Type} (ops : List (String × α)) (k : String) : Nat :=
  (ops.filter (fun p => p.1 = k)).length

/-- The version recorded for `k`, reading 0 when the key is absent. -/
def versionOf {α : Type} (m : StoreMap α) (k : String) : Int :=
  match m k with
  | some e => e.version
  | none => 0

/-! ### Messaging: state watch (StateStore.Watch) -/

/-- The immediate emission of Watch: the current entry, if present. -/
def watchInit {α : Type} (current : Option (StateEntry α)) : List (StateEntry α) :=
  match current with
  | some e => [e]
  | none => []

/-- The polling goroutine of Watch: at each tick it reads the key
(`obs = none` models not-found) and emits the entry whenever its version
exceeds `lastVersion`, updating `lastVersion`. -/
def watchPoll {α : Type} : Int → List (Option (StateEntry α)) → List (StateEntry α)
  | _, [] => []
  | lastVersion, obs :: rest =>
      match obs with
      | some e =>
          if e.version > lastVersion then e :: watchPoll e.version rest
          else watchPoll lastVersion rest
      | none => watchPoll lastVersion rest

/-- Everything Watch emits: the immediate current entry (if present)
followed by the poll loop's emissions, whose `lastVersion` starts at -1. -/
def watchEmits {α : Type} (current : Option (StateEntry α))
    (polls : List (Option (StateEntry α))) : List (StateEntry α) :=
  watchInit current ++ watchPoll (-1) polls

/-! ### Workflow engine (workflow source file: SequentialWorkflow, MixtureWorkflow) -/

/-- An agent as the workflow engine sees it: a name and the
`Execute(ctx, task)` function (errors as strings). -/
structure AgentL where
  name : String
  exec : String → Except String String

/-- The body of SequentialWorkflow.Execute: iterate over the agents,
feeding each agent's output to the next as its task; `finalResult` is
assigned only on the last iteration; a failing agent aborts with its
error. Also counts how many agents were invoked. -/
def seqGo (agents : List AgentL) (task finalResult : String) :
    Except String String × Nat :=
  match agents with
  | [] => (.ok finalResult, 0)
  | a :: rest =>
      match a.exec task with
      | .error e => (.error e, 1)
      | .ok result =>
          let fr := if rest.isEmpty then result else finalResult
          let r := seqGo rest result fr
          (r.1, r.2 + 1)

/-- SequentialWorkflow.Execute with an un-cancelled context
(`finalResult` starts as the empty string, Go's zero value). -/
def seqExecute (agents : List AgentL) (task : String) : Except String String × Nat :=
  seqGo agents task ""

/-- The left-to-right composition of the agents' Execute functions
(the spec's `An.Execute(... A1.Execute(x) ...)`), propagating the first
error. -/
def chainExec (agents : List AgentL) (task : String) : Except String String :=
  agents.foldlM (fun t a => a.exec t) task

/-- stringSliceToString: join the strings with a newline between
consecutive elements (the loop appends the separator after every element
except the last). -/
def stringSliceToString : List String → String
  | [] => ""
  | [s] => s
  | s :: rest => s ++ "\n" ++ stringSliceToString rest

/-- The input MixtureWorkflow.Execute hands to the aggregator agent:
`fmt.Sprintf("Aggregate the following results:\n%s", stringSliceToString(results))`. -/
def mixtureAggInput (results : List String) : String :=
  "Aggregate the following results:\n" ++ stringSliceToString results

/-- Whether an agent call succeeded. -/
def execOk : Except String String → Bool
  | .ok _ => true
  | .error _ => false

/-- The output of a successful agent call (empty for a failed one, which
is Go's zero value left in the `results` slice). -/
def execOut : Except String String → String
  | .ok s => s
  | .error _ => ""

/-- MixtureWorkflow.Execute with an un-cancelled context and with the
event client's PublishEvent/SyncState calls succeeding (they target the
out-of-scope RPC substrate; the claims condition on agent outcomes only).
All member agents run on the same task, `results[i]` collects agent i's
output in registration order; if any agent failed the workflow fails
with an error drawn from the error channel (which error is
scheduler-dependent; the embedding takes the first in registration
order, wrapped as the code wraps it); otherwise the aggregator runs on
`mixtureAggInput results` and its output is the final result (its error
is wrapped as `aggregation failed`). -/
def mixtureExecute (agents : List AgentL) (aggregator : AgentL) (task : String) :
    Except String String :=
  let outcomes := agents.map (fun a => a.exec task)
  if outcomes.all execOk then
    match aggregator.exec (mixtureAggInput (outcomes.map execOut)) with
    | .ok final => .ok final
    | .error e => .error ("aggregation failed: " ++ e)
  else
    match outcomes.findSome? (fun o => match o with | .error e => some e | .ok _ => none) with
    | some e => .error ("agent failed: " ++ e)
    | none => .error ""

/-! ### Cluster manager (src/pkg/distributed/cluster.go) -/

/-- NodeStatus. -/
inductive NodeStatusL where
  | unknown
  | healthy
  | overloaded
  | unhealthy
deriving DecidableEq, Repr

/-- A node as the scheduler reads it: its config tags, the names of its
registered agents (the keys of the `agents` map), status, load and
capacity (Go ints). -/
structure NodeC where
  id : String
  tags : List String
  agents : List String
  status : NodeStatusL
  load : Int
  capacity : Int
deriving DecidableEq, Repr

/-- TaskRequirements: an optional required agent id (empty string = not
given) and required tags. -/
structure TaskRequirementsL where
  agentID : String
  tags : List String
deriving DecidableEq, Repr

/-- nodeMatchesRequirements: when an agent id is required the node must
host it; when tags are required every one must be among the node's tags. -/
def nodeMatchesRequirements (n : NodeC) (r : TaskRequirementsL) : Bool :=
  if r.agentID != "" && !(n.agents.contains r.agentID) then false
  else if decide (0 < r.tags.length) && !(r.tags.all (fun t => n.tags.contains t)) then false
  else true

/-- The node's `load/capacity` ratio (float64 division in Go, modelled
in ℚ; all theorems assume positive capacity, which `NewNode` guarantees
with its fixed default of 100). -/
def loadFactor (n : NodeC) : ℚ :=
  (n.load : ℚ) / (n.capacity : ℚ)

/-- One iteration of findSuitableNode's loop over the accumulator
`(bestNode, lowestLoad)`: skip non-healthy or non-matching nodes, and
take the node when its load factor is strictly below the running
`lowestLoad` (which starts at 1.0). -/
def findStep (r : TaskRequirementsL) (acc : Option NodeC × ℚ) (n : NodeC) :
    Option NodeC × ℚ :=
  if n.status != NodeStatusL.healthy then acc
  else if !(nodeMatchesRequirements n r) then acc
  else if loadFactor n < acc.2 then (some n, loadFactor n)
  else acc

/-- findSuitableNode: fold the loop over the nodes (the cluster map's
iteration order abstracted as a list), starting from
`bestNode = nil, lowestLoad = 1.0`; `none` makes ScheduleTask fail with
`no suitable node found for task`. -/
def findSuitableNode (nodes : List NodeC) (r : TaskRequirementsL) : Option NodeC :=
  (nodes.foldl (findStep r) ((none : Option NodeC), (1 : ℚ))).1

/-- A node qualifies for the requirements when it is healthy and matches
them (the claim's notion of a suitable node). -/
def nodeQualifies (n : NodeC) (r : TaskRequirementsL) : Prop :=
  n.status = NodeStatusL.healthy ∧ nodeMatchesRequirements n r = true

instance (n : NodeC) (r : TaskRequirementsL) : Decidable (nodeQualifies n r) := by
  unfold nodeQualifies; infer_instance

/-! ### Node agent registry (src/pkg/distributed/node.go) -/

/-- The mutable part of a Node that RegisterAgent touches: the `agents`
map (keyed by agent name), `load` and `capacity`. `α` is the agent type,
with its `GetName()` passed separately. -/
structure NodeA (α : Type) where
  agents : String → Option α
  load : Int
  capacity : Int

/-- RegisterAgent: fail with `node is at capacity` when `load >= capacity`;
otherwise store the agent under its name (replacing any previous holder of
the name) and increment `load` (the subsequent PublishEvent is modelled as
succeeding). -/
def registerAgent {α : Type} (getName : α → String) (n : NodeA α) (a : α) :
    Except String (NodeA α) :=
  if n.load ≥ n.capacity then .error "node is at capacity"
  else .ok
    { agents := fun k => if k = getName a then some a else n.agents k
      load := n.load + 1
      capacity := n.capacity }

/-- `m` successive RegisterAgent calls with the same agent, stopping at
the first failure. -/
def registerIter {α : Type} (getName : α → String) (n : NodeA α) (a : α) :
    Nat → Except String (NodeA α)
  | 0 => .ok n
  | m + 1 =>
      match registerAgent getName n a with
      | .error e => .error e
      | .ok n' => registerIter getName n' a m

/-! ### Concrete fixtures used by the example-level checks -/

/-- A healthy node with no tags and no agents, fully loaded (100/100). -/
def nodeFull : NodeC :=
  { id := "n1", tags := [], agents := [], status := .healthy, load := 100, capacity := 100 }

/-- The spec's example node A: load 80, capacity 100. -/
def nodeA : NodeC :=
  { id := "A", tags := [], agents := [], status := .healthy, load := 80, capacity := 100 }

/-- The spec's example node B: load 50, capacity 100. -/
def nodeB : NodeC :=
  { id := "B", tags := [], agents := [], status := .healthy, load := 50, capacity := 100 }

/-- The spec's example node C: load 10, capacity 100. -/
def nodeC : NodeC :=
  { id := "C", tags := [], agents := [], status := .healthy, load := 10, capacity := 100 }

/-- Empty task requirements: no required agent, no required tags. -/
def reqNone : TaskRequirementsL :=
  { agentID := "", tags := [] }

/-! ### Theorems -/

lemma versionOf_stateSet {α : Type} (m : StoreMap α) (key k : String) (v : α) :
    versionOf (stateSet m key v) k = if k = key then versionOf m k + 1 else versionOf m k := by
  unfold versionOf stateSet
  by_cases h : k = key
  · subst h
    cases hm : m k <;> simp [hm]
  · simp [h]

lemma isSome_stateSet {α : Type} (m : StoreMap α) (key k : String) (v : α) :
    ((stateSet m key v) k).isSome = (if k = key then true else (m k).isSome) := by
  unfold stateSet
  by_cases h : k = key <;> simp [h]

lemma versionOf_applySets {α : Type} (ops : List (String × α)) :
    ∀ (m : StoreMap α) (k : String),
      versionOf (applySets m ops) k = versionOf m k + (countWrites ops k : Int) := by
  induction ops with
  | nil => intro m k; simp [applySets, countWrites]
  | cons p rest ih =>
      intro m k
      have hstep : applySets m (p :: rest) = applySets (stateSet m p.1 p.2) rest := rfl
      rw [hstep, ih, versionOf_stateSet]
      unfold countWrites
      by_cases h : p.1 = k
      · rw [List.filter_cons_of_pos (by simpa using h)]
        rw [if_pos h.symm, List.length_cons]
        push_cast
        ring
      · rw [List.filter_cons_of_neg (by simpa using h)]
        rw [if_neg (fun hk => h hk.symm)]

lemma isSome_applySets {α : Type} (ops : List (String × α)) :
    ∀ (m : StoreMap α) (k : String),
      ((applySets m ops) k).isSome = ((m k).isSome || decide (0 < countWrites ops k)) := by
  induction ops with
  | nil => intro m k; simp [applySets, countWrites]
  | cons p rest ih =>
      intro m k
      have hstep : applySets m (p :: rest) = applySets (stateSet m p.1 p.2) rest := rfl
      rw [hstep, ih, isSome_stateSet]
      unfold countWrites
      by_cases h : p.1 = k
      · rw [List.filter_cons_of_pos (by simpa using h)]
        simp [if_pos h.symm, Nat.succ_pos]
      · rw [List.filter_cons_of_neg (by simpa using h)]
        rw [if_neg (fun hk => h hk.symm)]

/-- C5: the version recorded for a key after the n-th Set on it equals n:
each Set on the key increments its recorded version by exactly 1, and
starting from the empty store the entry's version equals the number of
Set calls addressed to the key (the key is absent exactly when that
number is 0). -/
theorem C5_state_version {α : Type} (ops : List (String × α)) (k : String) :
    (∀ (m : StoreMap α) (v : α), versionOf (stateSet m k v) k = versionOf m k + 1)
    ∧ (match applySets (emptyStore α) ops k with
       | some e => e.version = (countWrites ops k : Int) ∧ 0 < countWrites ops k
       | none => countWrites ops k = 0) := by
  constructor
  · intro m v
    rw [versionOf_stateSet, if_pos rfl]
  · cases hres : applySets (emptyStore α) ops k with
    | none =>
        have hs := isSome_applySets ops (emptyStore α) k
        rw [hres] at hs
        have hcount : countWrites ops k = 0 := by
          by_contra hne
          have hpos : 0 < countWrites ops k := Nat.pos_of_ne_zero hne
          simp [emptyStore, hpos] at hs
        exact hcount
    | some e =>
        have hs := isSome_applySets ops (emptyStore α) k
        rw [hres] at hs
        have hv := versionOf_applySets ops (emptyStore α) k
        have hver : e.version = (countWrites ops k : Int) := by
          simpa [versionOf, hres, emptyStore] using hv
        have hpos : 0 < countWrites ops k := by
          by_contra hnot
          simp [emptyStore, hnot] at hs
        exact ⟨hver, hpos⟩

/-- C8: Allow first refills the bucket to
`min(bucketSize, tokens + elapsed*rate)`, returns true and consumes
exactly one token when at least one is available, and returns false
without consuming otherwise; with rate 5, bucket size 5 and no time
elapsing, five calls succeed and the sixth fails. -/
theorem C8_rate_limiter_allow (rl : RateLimiter) (elapsed : ℚ) :
    (((rlAllow rl elapsed).1 = true ↔
        1 ≤ minFloat ((rl.bucketSize : ℚ)) (rl.tokens + elapsed * rl.rate))
      ∧ (rlAllow rl elapsed).2.tokens =
          (if 1 ≤ minFloat ((rl.bucketSize : ℚ)) (rl.tokens + elapsed * rl.rate)
           then minFloat ((rl.bucketSize : ℚ)) (rl.tokens + elapsed * rl.rate) - 1
           else minFloat ((rl.bucketSize : ℚ)) (rl.tokens + elapsed * rl.rate))
      ∧ (rlAllow rl elapsed).2.rate = rl.rate
      ∧ (rlAllow rl elapsed).2.bucketSize = rl.bucketSize)
    ∧ rlAllowRun (newRateLimiter 5 5) 6 = [true, true, true, true, true, false] := by
  constructor
  · unfold rlAllow
    by_cases h : (1 : ℚ) ≤ minFloat ((rl.bucketSize : ℚ)) (rl.tokens + elapsed * rl.rate)
    · refine ⟨by simp [h], ?_, by simp [h], by simp [h]⟩
      simp only [ge_iff_le, if_pos h]
    · refine ⟨by simp [h], ?_, by simp [h], by simp [h]⟩
      simp only [ge_iff_le, if_neg h]
  · norm_num [rlAllowRun, rlAllow, newRateLimiter, minFloat]

/-- C9: the Watch poll loop starts its `lastVersion` at -1, so after the
immediate emission of the current entry the first poll tick emits the
same entry again: with a single key at version 1 and one tick, the
emitted versions are [1, 1] — version 1 is emitted twice and the
sequence is not strictly increasing, contradicting the documented
"a new entry each time its version increases" behaviour. -/
theorem C9_watch_duplicate_emission :
    watchEmits (some ({ value := "v", version := 1 } : StateEntry String))
        [some { value := "v", version := 1 }]
      = [{ value := "v", version := 1 }, { value := "v", version := 1 }]
    ∧ (watchEmits (some ({ value := "v", version := 1 } : StateEntry String))
        [some { value := "v", version := 1 }]).map (fun e => e.version) = [1, 1]
    ∧ ¬ List.Pairwise (fun a b : Int => a < b) [1, 1] := by
  refine ⟨by decide, by decide, ?_⟩
  intro h
  have := List.rel_of_pairwise_cons h (List.mem_singleton.mpr rfl)
  exact absurd this (by norm_num)

lemma registerIter_fills {α : Type} (getName : α → String) (a : α) :
    ∀ (m : Nat) (n : NodeA α), (m : Int) = n.capacity - n.load →
      (n.agents (getName a)).isSome = true →
      ∃ n'', registerIter getName n a m = .ok n''
        ∧ n''.load = n''.capacity ∧ n''.capacity = n.capacity
        ∧ (∀ k, (n''.agents k).isSome = (n.agents k).isSome) := by
  intro m
  induction m with
  | zero =>
      intro n hm hp
      refine ⟨n, rfl, ?_, rfl, fun k => rfl⟩
      push_cast at hm
      omega
  | succ m ih =>
      intro n hm hp
      have hlt : n.load < n.capacity := by
        push_cast at hm
        omega
      have hnot : ¬ n.load ≥ n.capacity := not_le.mpr hlt
      have hreg : registerAgent getName n a =
          .ok { agents := fun k => if k = getName a then some a else n.agents k
                load := n.load + 1
                capacity := n.capacity } := by
        unfold registerAgent
        rw [if_neg hnot]
      obtain ⟨n'', h1, h2, h3, h4⟩ := ih
        { agents := fun k => if k = getName a then some a else n.agents k
          load := n.load + 1
          capacity := n.capacity }
        (by push_cast at hm ⊢; omega)
        (by simp)
      refine ⟨n'', ?_, h2, h3, fun k => ?_⟩
      · unfold registerIter
        rw [hreg]
        exact h1
      · rw [h4 k]
        by_cases hk : k = getName a
        · subst hk
          simp [hp]
        · simp [hk]

/-- C10: RegisterAgent keys agents by name; re-registering a name that is
already present succeeds below capacity, replaces the stored agent,
leaves every other key untouched (adding no new agent), and still
increments `load` — so repeating the call `capacity - load` more times
brings the node to full load and the next call fails with
`node is at capacity`, still without adding any agent. -/
theorem C10_register_agent {α : Type} (getName : α → String) (n : NodeA α) (a b : α)
    (hload : n.load < n.capacity) (hpresent : n.agents (getName a) = some b) :
    (∃ n', registerAgent getName n a = .ok n'
       ∧ n'.load = n.load + 1
       ∧ n'.agents (getName a) = some a
       ∧ (∀ k, k ≠ getName a → n'.agents k = n.agents k)
       ∧ (∀ k, (n'.agents k).isSome = (n.agents k).isSome))
    ∧ ∀ m : Nat, (m : Int) = n.capacity - n.load →
        ∃ n'', registerIter getName n a m = .ok n''
          ∧ n''.load = n.capacity
          ∧ registerAgent getName n'' a = .error "node is at capacity"
          ∧ (∀ k, (n''.agents k).isSome = (n.agents k).isSome) := by
  have hnot : ¬ n.load ≥ n.capacity := not_le.mpr hload
  constructor
  · refine ⟨_, by unfold registerAgent; rw [if_neg hnot], rfl, ?_, ?_, ?_⟩
    · simp
    · intro k hk
      simp [hk]
    · intro k
      by_cases hk : k = getName a
      · subst hk; simp [hpresent]
      · simp [hk]
  · intro m hm
    obtain ⟨n'', h1, h2, h3, h4⟩ :=
      registerIter_fills getName a m n hm (by rw [hpresent]; rfl)
    refine ⟨n'', h1, by omega, ?_, h4⟩
    unfold registerAgent
    rw [if_pos (by omega)]

lemma except_bind_ok {α β γ : Type} (r : α) (f : α → Except γ β) :
    (Except.ok r >>= f) = f r := rfl

lemma except_bind_error {α β γ : Type} (e : γ) (f : α → Except γ β) :
    ((Except.error e : Except γ α) >>= f) = Except.error e := rfl

lemma except_pure {α γ : Type} (a : α) : (pure a : Except γ α) = Except.ok a := rfl

lemma seqGo_fst (agents : List AgentL) : ∀ (task fr : String),
    (seqGo agents task fr).1 =
      if agents.isEmpty then .ok fr else chainExec agents task := by
  induction agents with
  | nil => intro task fr; simp [seqGo]
  | cons a rest ih =>
      intro task fr
      cases hres : a.exec task with
      | error e =>
          simp [seqGo, hres, chainExec, List.foldlM_cons, except_bind_error]
      | ok r =>
          simp only [seqGo, hres]
          rw [ih]
          by_cases hrest : rest.isEmpty
          · rw [List.isEmpty_iff] at hrest
            simp [hrest, chainExec, List.foldlM_cons, hres, except_bind_ok, except_pure]
          · simp [hrest, chainExec, List.foldlM_cons, hres, except_bind_ok]

lemma seqGo_fail (pre : List AgentL) : ∀ (a : AgentL) (post : List AgentL)
    (task y fr e : String),
    chainExec pre task = .ok y → a.exec y = .error e →
    seqGo (pre ++ a :: post) task fr = (.error e, pre.length + 1) := by
  induction pre with
  | nil =>
      intro a post task y fr e hchain hfail
      have hy : task = y := by
        simpa [chainExec, except_pure, Except.ok.injEq] using hchain
      subst hy
      simp [seqGo, hfail]
  | cons p ps ih =>
      intro a post task y fr e hchain hfail
      cases hp : p.exec task with
      | error e' =>
          rw [chainExec, List.foldlM_cons, hp, except_bind_error] at hchain
          exact absurd hchain (by simp)
      | ok t =>
          have hchain' : chainExec ps t = .ok y := by
            rw [chainExec, List.foldlM_cons, hp, except_bind_ok] at hchain
            exact hchain
          have hrec := ih a post t y
            (if (ps ++ a :: post).isEmpty then t else fr) e hchain' hfail
          simp only [List.cons_append, seqGo, hp, List.append_eq]
          rw [hrec]
          rfl

/-- C6: a sequential workflow over a nonempty agent list computes the
left-to-right composition of the agents (each agent's output is the next
agent's task, the last output is the result, and a failing agent's error
is returned verbatim); when the agents split as `pre ++ a :: post` with
`pre` succeeding and `a` failing with `e`, the workflow returns exactly
`e` and invokes exactly `pre.length + 1` agents — none after `a`. -/
theorem C6_sequential_workflow (agents pre post : List AgentL) (a : AgentL)
    (task y e : String)
    (hpre : chainExec pre task = .ok y) (hfail : a.exec y = .error e) :
    (agents ≠ [] → (seqExecute agents task).1 = chainExec agents task)
    ∧ seqExecute (pre ++ a :: post) task = (.error e, pre.length + 1) := by
  constructor
  · intro hne
    rw [seqExecute, seqGo_fst]
    rw [if_neg (by simpa [List.isEmpty_iff] using hne)]
  · exact seqGo_fail pre a post task y "" e hpre hfail

/-- Witness for C6 at a concrete workflow: [A, B] composes, and with a
failing agent in the middle only the agents up to it run. -/
theorem C6_sequential_workflow_witness :
    ((seqExecute [⟨"A", fun s => .ok (s ++ "1")⟩, ⟨"B", fun s => .ok (s ++ "2")⟩] "x").1
        = chainExec [⟨"A", fun s => .ok (s ++ "1")⟩, ⟨"B", fun s => .ok (s ++ "2")⟩] "x")
    ∧ seqExecute [⟨"A", fun s => .ok (s ++ "1")⟩, ⟨"F", fun _ => .error "boom"⟩,
        ⟨"B", fun s => .ok (s ++ "2")⟩] "x" = (.error "boom", 2) := by
  have h := C6_sequential_workflow
    [⟨"A", fun s => .ok (s ++ "1")⟩, ⟨"B", fun s => .ok (s ++ "2")⟩]
    [⟨"A", fun s => .ok (s ++ "1")⟩] [⟨"B", fun s => .ok (s ++ "2")⟩]
    ⟨"F", fun _ => .error "boom"⟩ "x" "x1" "boom" rfl rfl
  exact ⟨h.1 (by simp), h.2⟩

lemma all_execOk_map_ok (outs : List String) :
    ((outs.map Except.ok).all execOk) = true := by
  induction outs with
  | nil => rfl
  | cons s rest ih => simp [execOk, ih]

lemma map_execOut_map_ok (outs : List String) :
    (outs.map Except.ok).map execOut = outs := by
  induction outs with
  | nil => rfl
  | cons s rest ih => simpa [execOut] using ih

/-- C2 (amended): when every member agent succeeds, the aggregator is
invoked with the fixed prompt prefix `Aggregate the following results:`
and a newline, followed by the member outputs newline-joined in
registration order; the aggregator's (successful) output is the final
result, and an aggregator error is returned wrapped. -/
theorem C2_mixture_aggregation (agents : List AgentL) (aggregator : AgentL)
    (task : String) (outs : List String)
    (h : agents.map (fun a => a.exec task) = outs.map Except.ok) :
    mixtureExecute agents aggregator task =
      match aggregator.exec (mixtureAggInput outs) with
      | .ok final => .ok final
      | .error e => .error ("aggregation failed: " ++ e) := by
  unfold mixtureExecute
  rw [h, if_pos (all_execOk_map_ok outs), map_execOut_map_ok outs]

/-- Witness for C2 at a concrete workflow of two agents and an echoing
aggregator. -/
theorem C2_mixture_aggregation_witness :
    mixtureExecute [⟨"A", fun _ => .ok "a"⟩, ⟨"B", fun _ => .ok "b"⟩]
        ⟨"G", fun s => .ok s⟩ "x"
      = .ok "Aggregate the following results:\na\nb" := by
  have h := C2_mixture_aggregation [⟨"A", fun _ => .ok "a"⟩, ⟨"B", fun _ => .ok "b"⟩]
    ⟨"G", fun s => .ok s⟩ "x" ["a", "b"] rfl
  rw [h]
  rfl

/-- C2 counterexample: with members producing "a" and "b" and an
aggregator returning its input unchanged, the claim as stated predicts
final result "a\nb", but the code prepends the prompt prefix: the
aggregator is not invoked with exactly the newline-joined outputs. -/
theorem C2_counterexample :
    mixtureExecute [⟨"A", fun _ => .ok "a"⟩, ⟨"B", fun _ => .ok "b"⟩]
        ⟨"G", fun s => .ok s⟩ "x"
      = .ok "Aggregate the following results:\na\nb"
    ∧ ("Aggregate the following results:\na\nb" : String) ≠ "a\nb" := by
  constructor
  · rfl
  · decide

lemma retryGo_all_fail {ε : Type} [DecidableEq ε] (fn : Nat → Option ε) (errs : Nat → ε)
    (rE : List ε) (bf : ℚ) (maxD : Int)
    (hfail : ∀ i, fn i = some (errs i))
    (hretry : ∀ i, isRetryable (errs i) rE = true) :
    ∀ (fuel attempt : Nat) (delay : Int), 1 ≤ fuel →
      retryGo fn rE bf maxD fuel attempt delay =
        (some (errs (attempt + fuel - 1)), fuel, delaySeq bf maxD delay (fuel - 1)) := by
  intro fuel
  induction fuel with
  | zero => intro _ _ h; omega
  | succ f ihf =>
      intro attempt delay _
      have hred : retryGo fn rE bf maxD (f + 1) attempt delay =
          (if ¬ isRetryable (errs attempt) rE = true then (some (errs attempt), 1, [])
           else if f = 0 then (some (errs attempt), 1, [])
           else
             let r := retryGo fn rE bf maxD f (attempt + 1) (nextDelay bf maxD delay)
             (r.1, r.2.1 + 1, delay :: r.2.2)) := by
        rw [retryGo, hfail attempt]
      have hcond : ¬ (¬ isRetryable (errs attempt) rE = true) := by
        simp [hretry attempt]
      cases f with
      | zero =>
          rw [hred, if_neg hcond, if_pos rfl]
          simp [delaySeq]
      | succ f' =>
          have ih := ihf (attempt + 1) (nextDelay bf maxD delay) (by omega)
          rw [hred, if_neg hcond, if_neg (Nat.succ_ne_zero f')]
          simp only [ih]
          have hidx : attempt + 1 + (f' + 1) - 1 = attempt + (f' + 1 + 1) - 1 := by omega
          rw [hidx]
          rfl

/-- C7: when `MaxAttempts = n ≥ 1` and the function fails on every
invocation with an error the configuration classifies retryable, Retry
invokes the function exactly n times, returns the n-th invocation's
error, and sleeps the backoff sequence that starts at `InitialDelay` and
is updated to `min(delay*BackoffFactor, MaxDelay)` (with the Duration
truncation) between attempts; moreover an empty allow-list classifies
every error retryable. -/
theorem C7_retry_exhausts_attempts {ε : Type} [DecidableEq ε] (cfg : RetryConfig ε)
    (fn : Nat → Option ε) (errs : Nat → ε) (n : Nat)
    (hn : 1 ≤ n) (hmax : cfg.maxAttempts = (n : Int))
    (hfail : ∀ i, fn i = some (errs i))
    (hretry : ∀ i, isRetryable (errs i) cfg.retryableErrors = true) :
    retry fn cfg =
      (some (errs n), n, delaySeq cfg.backoffFactor cfg.maxDelay cfg.initialDelay (n - 1))
    ∧ (cfg.retryableErrors = [] → ∀ e : ε, isRetryable e cfg.retryableErrors = true) := by
  constructor
  · unfold retry
    rw [hmax, Int.toNat_natCast]
    rw [retryGo_all_fail fn errs _ _ _ hfail hretry n 1 cfg.initialDelay hn]
    have hidx : 1 + n - 1 = n := by omega
    rw [hidx]
  · intro hnil e
    simp [isRetryable, hnil]

/-- Witness for C7: three attempts, errors 1,2,3, initial delay 100,
factor 2, cap 250 — three invocations, final error 3, delays [100, 200]. -/
theorem C7_retry_exhausts_attempts_witness :
    retry (fun i => some i)
        ({ maxAttempts := 3, initialDelay := 100, maxDelay := 250,
           backoffFactor := 2, retryableErrors := [] } : RetryConfig Nat)
      = (some 3, 3, [100, 200]) := by
  have h := (C7_retry_exhausts_attempts
    ({ maxAttempts := 3, initialDelay := 100, maxDelay := 250,
       backoffFactor := 2, retryableErrors := [] } : RetryConfig Nat)
    (fun i => some i) (fun i => i) 3 (by norm_num) rfl (fun i => rfl) (fun i => rfl)).1
  rw [h]
  have h1 : nextDelay 2 250 100 = 200 := by
    unfold nextDelay
    norm_num [min_def]
  have h2 : delaySeq 2 250 100 2 = [100, 200] := by
    simp [delaySeq, h1]
  rw [show (3 : Nat) - 1 = 2 from rfl, h2]

/-- Witness for C10 at a one-slot-short node: re-registering the name
"a" succeeds and brings the load to 100. -/
theorem C10_register_agent_witness :
    ∃ n', registerAgent (fun s : String => s)
        ({ agents := fun k => if k = "a" then some "a0" else none,
           load := 99, capacity := 100 } : NodeA String) "a" = .ok n'
      ∧ n'.load = 100 := by
  obtain ⟨⟨n', h1, h2, _, _, _⟩, _⟩ := C10_register_agent (fun s : String => s)
    ({ agents := fun k => if k = "a" then some "a0" else none,
       load := 99, capacity := 100 } : NodeA String) "a" "a0"
    (by norm_num) (by simp)
  exact ⟨n', h1, by rw [h2]; norm_num⟩

lemma cbExecute_denied (cb : CircuitBreaker) (now : Int) (fnResult : Option String)
    (h1 : cb.state = .Open) (h2 : ¬ (now - cb.lastFailure > cb.resetTimeout)) :
    cbExecute cb now fnResult = (some errCircuitOpen, 0, cb) := by
  unfold cbExecute allowRequest
  simp [h1, if_neg h2]

lemma cbExecute_allowed (cb : CircuitBreaker) (now : Int) (fnResult : Option String)
    (h : ¬ (cb.state = .Open ∧ ¬ (now - cb.lastFailure > cb.resetTimeout))) :
    cbExecute cb now fnResult =
      (fnResult, 1, recordResult (allowRequest cb now).2 fnResult.isSome now) := by
  unfold cbExecute
  cases hst : cb.state with
  | Closed => simp [allowRequest, hst]
  | HalfOpen => simp [allowRequest, hst]
  | Open =>
      have h2 : now - cb.lastFailure > cb.resetTimeout := by
        by_contra hn
        exact h ⟨hst, hn⟩
      simp [allowRequest, hst, h2]

/-- C4: Execute returns `ErrCircuitOpen` with zero invocations of `fn`
exactly when the breaker is Open and the reset timeout has not elapsed
(and then leaves the breaker untouched); in every other case it invokes
`fn` exactly once, records the outcome on the post-AllowRequest state,
and returns `fn`'s error (or nil) verbatim. -/
theorem C4_execute_gate (cb : CircuitBreaker) (now : Int) (fnResult : Option String) :
    (((cbExecute cb now fnResult).1 = some errCircuitOpen
        ∧ (cbExecute cb now fnResult).2.1 = 0)
      ↔ (cb.state = .Open ∧ ¬ (now - cb.lastFailure > cb.resetTimeout)))
    ∧ ((cb.state = .Open ∧ ¬ (now - cb.lastFailure > cb.resetTimeout)) →
        cbExecute cb now fnResult = (some errCircuitOpen, 0, cb))
    ∧ (¬ (cb.state = .Open ∧ ¬ (now - cb.lastFailure > cb.resetTimeout)) →
        cbExecute cb now fnResult =
          (fnResult, 1, recordResult (allowRequest cb now).2 fnResult.isSome now)) := by
  by_cases hd : cb.state = .Open ∧ ¬ (now - cb.lastFailure > cb.resetTimeout)
  · have he := cbExecute_denied cb now fnResult hd.1 hd.2
    refine ⟨⟨fun _ => hd, fun _ => ?_⟩, fun _ => he, fun h => absurd hd h⟩
    rw [he]
    exact ⟨rfl, rfl⟩
  · have ha := cbExecute_allowed cb now fnResult hd
    refine ⟨⟨fun hcontra => ?_, fun h => absurd h hd⟩, fun h => absurd h hd, fun _ => ha⟩
    rw [ha] at hcontra
    exact absurd hcontra.2 one_ne_zero

/-- Witness for C4 at a concrete Open breaker within its reset window:
Execute short-circuits with `ErrCircuitOpen`, zero invocations, breaker
unchanged. -/
theorem C4_execute_gate_witness :
    cbExecute ({ state := .Open, failureCount := 3, failureThreshold := 3,
                 resetTimeout := 10, lastFailure := 0 } : CircuitBreaker) 5 none
      = (some errCircuitOpen, 0,
         ({ state := .Open, failureCount := 3, failureThreshold := 3,
            resetTimeout := 10, lastFailure := 0 } : CircuitBreaker)) := by
  exact (C4_execute_gate
    ({ state := .Open, failureCount := 3, failureThreshold := 3,
       resetTimeout := 10, lastFailure := 0 } : CircuitBreaker) 5 none).2.1
    ⟨rfl, by decide⟩

lemma allowRequest_snd (cb : CircuitBreaker) (now : Int) :
    (allowRequest cb now).2 = cb
    ∨ (cb.state = .Open ∧ now - cb.lastFailure > cb.resetTimeout
        ∧ (allowRequest cb now).2 = { cb with state := .HalfOpen }) := by
  unfold allowRequest
  cases hst : cb.state with
  | Closed => exact Or.inl rfl
  | HalfOpen => exact Or.inl rfl
  | Open =>
      by_cases hc : now - cb.lastFailure > cb.resetTimeout
      · exact Or.inr ⟨hst.symm ▸ rfl, hc, by rw [if_pos hc]⟩
      · refine Or.inl ?_
        rw [if_neg hc]

lemma recordResult_cases (cb : CircuitBreaker) (failed : Bool) (now : Int) :
    recordResult cb failed now =
      if failed then
        (if cb.state = .HalfOpen ∨ cb.failureCount + 1 ≥ cb.failureThreshold then
          { state := .Open, failureCount := cb.failureCount + 1,
            failureThreshold := cb.failureThreshold,
            resetTimeout := cb.resetTimeout, lastFailure := now }
        else
          { state := cb.state, failureCount := cb.failureCount + 1,
            failureThreshold := cb.failureThreshold,
            resetTimeout := cb.resetTimeout, lastFailure := now })
      else
        (if cb.state = .HalfOpen then
          { cb with state := .Closed, failureCount := 0 }
        else cb) := rfl

lemma cb_fields_reachable {th t : Int} {cb : CircuitBreaker} (h : CBReachable th t cb) :
    cb.failureThreshold = th ∧ cb.resetTimeout = t := by
  induction h with
  | init => exact ⟨rfl, rfl⟩
  | step hprev s ih =>
      obtain ⟨h1, h2⟩ := ih
      rename_i cb0
      cases s with
      | allow now =>
          show ((allowRequest cb0 now).2.failureThreshold = th
            ∧ (allowRequest cb0 now).2.resetTimeout = t)
          rcases allowRequest_snd cb0 now with heq | ⟨_, _, heq⟩ <;>
            rw [heq] <;> exact ⟨h1, h2⟩
      | record failed now =>
          show ((recordResult cb0 failed now).failureThreshold = th
            ∧ (recordResult cb0 failed now).resetTimeout = t)
          rw [recordResult_cases]
          cases failed with
          | false =>
              rw [if_neg (by simp)]
              split <;> exact ⟨h1, h2⟩
          | true =>
              rw [if_pos rfl]
              split <;> exact ⟨h1, h2⟩

lemma cb_closed_count {th t : Int} (hth : 1 ≤ th) {cb : CircuitBreaker}
    (h : CBReachable th t cb) : cb.state = .Closed → cb.failureCount < th := by
  induction h with
  | init =>
      intro _
      show (0 : Int) < th
      omega
  | step hprev s ih =>
      rename_i cb0
      have hfields := cb_fields_reachable hprev
      intro hst'
      cases s with
      | allow now =>
          have hcount : (cbStep cb0 (.allow now)).failureCount < th := by
            rcases allowRequest_snd cb0 now with heq | ⟨hopen, _, heq⟩
            · have hst0 : cb0.state = .Closed := by
                have : (cbStep cb0 (.allow now)).state = .Closed := hst'
                rwa [show cbStep cb0 (.allow now) = (allowRequest cb0 now).2 from rfl,
                  heq] at this
              rw [show cbStep cb0 (.allow now) = (allowRequest cb0 now).2 from rfl, heq]
              exact ih hst0
            · exact absurd (by
                have : (cbStep cb0 (.allow now)).state = .Closed := hst'
                rwa [show cbStep cb0 (.allow now) = (allowRequest cb0 now).2 from rfl,
                  heq] at this) (by simp)
          exact hcount
      | record failed now =>
          have hres : (cbStep cb0 (.record failed now)) = recordResult cb0 failed now := rfl
          rw [hres] at hst' ⊢
          rw [recordResult_cases] at hst' ⊢
          cases failed with
          | false =>
              rw [if_neg (by simp)] at hst' ⊢
              by_cases hho : cb0.state = .HalfOpen
              · rw [if_pos hho]
                show (0 : Int) < th
                omega
              · rw [if_neg hho] at hst' ⊢
                exact ih hst'
          | true =>
              rw [if_pos rfl] at hst' ⊢
              by_cases hcond : cb0.state = .HalfOpen ∨ cb0.failureCount + 1 ≥ cb0.failureThreshold
              · rw [if_pos hcond] at hst'
                exact absurd hst' (by simp)
              · rw [if_neg hcond] at hst' ⊢
                push_neg at hcond
                have := hcond.2
                show cb0.failureCount + 1 < th
                omega

lemma allowRequest_eq (cb : CircuitBreaker) (now : Int) :
    allowRequest cb now =
      if cb.state = .Open then
        (if now - cb.lastFailure > cb.resetTimeout then (true, { cb with state := .HalfOpen })
         else (false, cb))
      else (true, cb) := by
  unfold allowRequest
  cases hst : cb.state with
  | Closed => simp
  | HalfOpen => simp
  | Open => rw [if_pos rfl]

/-- C3: stepped by AllowRequest and RecordResult, a reachable breaker
(threshold ≥ 1) changes state only through the four documented
transitions: Closed→Open exactly on a recorded failure that brings the
failure count to exactly `failureThreshold`, Open→HalfOpen only on an
AllowRequest after `resetTimeout` has elapsed since the last failure,
HalfOpen→Closed exactly on a recorded success (which zeroes the count),
and HalfOpen→Open exactly on a recorded failure, regardless of count. -/
theorem C3_circuit_breaker_transitions (th t : Int) (hth : 1 ≤ th)
    (cb : CircuitBreaker) (hreach : CBReachable th t cb) (s : CBStep)
    (cb' : CircuitBreaker) (hstep : cb' = cbStep cb s) :
    (cb.state = .Closed →
        (cb'.state = .Open ↔ ∃ now, s = .record true now ∧ cb'.failureCount = th)
        ∧ cb'.state ≠ .HalfOpen)
    ∧ (cb.state = .Open →
        (cb'.state = .HalfOpen ↔
          ∃ now, s = .allow now ∧ now - cb.lastFailure > cb.resetTimeout)
        ∧ cb'.state ≠ .Closed)
    ∧ (cb.state = .HalfOpen →
        (cb'.state = .Closed ↔ ∃ now, s = .record false now)
        ∧ (cb'.state = .Closed → cb'.failureCount = 0)
        ∧ (cb'.state = .Open ↔ ∃ now, s = .record true now)) := by
  subst hstep
  obtain ⟨hthr, htim⟩ := cb_fields_reachable hreach
  have hcnt := cb_closed_count hth hreach
  refine ⟨?_, ?_, ?_⟩
  · -- from Closed
    intro hst
    have hcl := hcnt hst
    cases s with
    | allow now =>
        have h : cbStep cb (.allow now) = cb := by
          show (allowRequest cb now).2 = cb
          rw [allowRequest_eq, if_neg (by rw [hst]; simp)]
        rw [h]
        refine ⟨⟨fun ho => absurd (hst.symm.trans ho) (by simp), ?_⟩,
          fun hho => absurd (hst.symm.trans hho) (by simp)⟩
        rintro ⟨now', hnow, _⟩
        exact absurd hnow (by simp)
    | record failed now =>
        cases failed with
        | false =>
            have h : cbStep cb (.record false now) = cb := by
              show recordResult cb false now = cb
              rw [recordResult_cases, if_neg (by simp), if_neg (by rw [hst]; simp)]
            rw [h]
            refine ⟨⟨fun ho => absurd (hst.symm.trans ho) (by simp), ?_⟩,
              fun hho => absurd (hst.symm.trans hho) (by simp)⟩
            rintro ⟨now', hnow, _⟩
            exact absurd hnow (by simp)
        | true =>
            by_cases hge : cb.failureCount + 1 ≥ cb.failureThreshold
            · have h : cbStep cb (.record true now) =
                  { state := .Open, failureCount := cb.failureCount + 1,
                    failureThreshold := cb.failureThreshold,
                    resetTimeout := cb.resetTimeout, lastFailure := now } := by
                show recordResult cb true now = _
                rw [recordResult_cases, if_pos rfl, if_pos (Or.inr hge)]
              rw [h]
              have heq : cb.failureCount + 1 = th := by
                rw [hthr] at hge
                omega
              exact ⟨⟨fun _ => ⟨now, rfl, heq⟩, fun _ => rfl⟩, by simp⟩
            · have h : cbStep cb (.record true now) =
                  { state := cb.state, failureCount := cb.failureCount + 1,
                    failureThreshold := cb.failureThreshold,
                    resetTimeout := cb.resetTimeout, lastFailure := now } := by
                show recordResult cb true now = _
                rw [recordResult_cases, if_pos rfl, if_neg (by
                  rintro (hho | hge2)
                  · rw [hst] at hho
                    exact absurd hho (by simp)
                  · exact hge hge2)]
              rw [h]
              refine ⟨⟨fun ho => absurd (hst.symm.trans ho) (by simp), ?_⟩, ?_⟩
              · rintro ⟨now', _, hcnt'⟩
                have hcc : cb.failureCount + 1 = th := hcnt'
                rw [hthr] at hge
                omega
              · show cb.state ≠ CircuitState.HalfOpen
                rw [hst]
                simp
  · -- from Open
    intro hst
    cases s with
    | allow now =>
        by_cases hc : now - cb.lastFailure > cb.resetTimeout
        · have h : cbStep cb (.allow now) = { cb with state := .HalfOpen } := by
            show (allowRequest cb now).2 = _
            rw [allowRequest_eq, if_pos hst, if_pos hc]
          rw [h]
          refine ⟨⟨fun _ => ⟨now, rfl, hc⟩, fun _ => rfl⟩, ?_⟩
          intro hcl
          simp at hcl
        · have h : cbStep cb (.allow now) = cb := by
            show (allowRequest cb now).2 = cb
            rw [allowRequest_eq, if_pos hst, if_neg hc]
          rw [h]
          refine ⟨⟨fun hho => absurd (hst.symm.trans hho) (by simp), ?_⟩,
            fun hcl => absurd (hst.symm.trans hcl) (by simp)⟩
          rintro ⟨now', hnow, hc'⟩
          cases hnow
          exact absurd hc' hc
    | record failed now =>
        cases failed with
        | false =>
            have h : cbStep cb (.record false now) = cb := by
              show recordResult cb false now = cb
              rw [recordResult_cases, if_neg (by simp), if_neg (by rw [hst]; simp)]
            rw [h]
            refine ⟨⟨fun hho => absurd (hst.symm.trans hho) (by simp), ?_⟩,
              fun hcl => absurd (hst.symm.trans hcl) (by simp)⟩
            rintro ⟨now', hnow, _⟩
            exact absurd hnow (by simp)
        | true =>
            by_cases hcond : cb.state = .HalfOpen ∨ cb.failureCount + 1 ≥ cb.failureThreshold
            · have h : cbStep cb (.record true now) =
                  { state := .Open, failureCount := cb.failureCount + 1,
                    failureThreshold := cb.failureThreshold,
                    resetTimeout := cb.resetTimeout, lastFailure := now } := by
                show recordResult cb true now = _
                rw [recordResult_cases, if_pos rfl, if_pos hcond]
              rw [h]
              refine ⟨⟨fun hho => by simp at hho, ?_⟩, by simp⟩
              rintro ⟨now', hnow, _⟩
              exact absurd hnow (by simp)
            · have h : cbStep cb (.record true now) =
                  { state := cb.state, failureCount := cb.failureCount + 1,
                    failureThreshold := cb.failureThreshold,
                    resetTimeout := cb.resetTimeout, lastFailure := now } := by
                show recordResult cb true now = _
                rw [recordResult_cases, if_pos rfl, if_neg hcond]
              rw [h]
              refine ⟨⟨fun hho => absurd (hst.symm.trans hho) (by simp), ?_⟩, ?_⟩
              · rintro ⟨now', hnow, _⟩
                exact absurd hnow (by simp)
              · show cb.state ≠ CircuitState.Closed
                rw [hst]
                simp
  · -- from HalfOpen
    intro hst
    cases s with
    | allow now =>
        have h : cbStep cb (.allow now) = cb := by
          show (allowRequest cb now).2 = cb
          rw [allowRequest_eq, if_neg (by rw [hst]; simp)]
        rw [h]
        refine ⟨⟨fun hcl => absurd (hst.symm.trans hcl) (by simp), ?_⟩,
          fun hcl => absurd (hst.symm.trans hcl) (by simp), ?_, ?_⟩
        · rintro ⟨now', hnow⟩
          exact absurd hnow (by simp)
        · intro ho
          exact absurd (hst.symm.trans ho) (by simp)
        · rintro ⟨now', hnow⟩
          exact absurd hnow (by simp)
    | record failed now =>
        cases failed with
        | false =>
            have h : cbStep cb (.record false now) =
                { cb with state := .Closed, failureCount := 0 } := by
              show recordResult cb false now = _
              rw [recordResult_cases, if_neg (by simp), if_pos hst]
            rw [h]
            refine ⟨⟨fun _ => ⟨now, rfl⟩, fun _ => rfl⟩, fun _ => rfl, ?_, ?_⟩
            · intro ho
              simp at ho
            · rintro ⟨now', hnow⟩
              exact absurd hnow (by simp)
        | true =>
            have h : cbStep cb (.record true now) =
                { state := .Open, failureCount := cb.failureCount + 1,
                  failureThreshold := cb.failureThreshold,
                  resetTimeout := cb.resetTimeout, lastFailure := now } := by
              show recordResult cb true now = _
              rw [recordResult_cases, if_pos rfl, if_pos (Or.inl hst)]
            rw [h]
            refine ⟨⟨fun hcl => by simp at hcl, ?_⟩, fun hcl => by simp at hcl,
              fun _ => ⟨now, rfl⟩, fun _ => rfl⟩
            rintro ⟨now', hnow⟩
            exact absurd hnow (by simp)

/-- Witness for C3 at the freshly created breaker with threshold 3: a
recorded failure cannot move it (from Closed) to HalfOpen. -/
theorem C3_circuit_breaker_transitions_witness :
    (cbStep (newCircuitBreaker 3 10) (.record true 0)).state ≠ .HalfOpen := by
  exact ((C3_circuit_breaker_transitions 3 10 (by norm_num) (newCircuitBreaker 3 10)
    CBReachable.init (.record true 0) _ rfl).1 rfl).2

lemma findFold_spec (r : TaskRequirementsL) :
    ∀ (nodes : List NodeC) (b : Option NodeC) (low : ℚ),
      (nodes.foldl (findStep r) (b, low)).2 ≤ low
      ∧ (∀ m ∈ nodes, nodeQualifies m r →
          (nodes.foldl (findStep r) (b, low)).2 ≤ loadFactor m)
      ∧ ((nodes.foldl (findStep r) (b, low)).1 = b
            ∧ (nodes.foldl (findStep r) (b, low)).2 = low
          ∨ ∃ n ∈ nodes, nodeQualifies n r
              ∧ (nodes.foldl (findStep r) (b, low)).1 = some n
              ∧ (nodes.foldl (findStep r) (b, low)).2 = loadFactor n
              ∧ (nodes.foldl (findStep r) (b, low)).2 < low) := by
  intro nodes
  induction nodes with
  | nil =>
      intro b low
      exact ⟨le_refl _, by simp, Or.inl ⟨rfl, rfl⟩⟩
  | cons n ns ih =>
      intro b low
      by_cases hq : nodeQualifies n r
      · obtain ⟨hs, hm⟩ := hq
        by_cases hlt : loadFactor n < low
        · have hstep : findStep r (b, low) n = (some n, loadFactor n) := by
            unfold findStep
            rw [if_neg (by simp [hs]), if_neg (by simp [hm]), if_pos hlt]
          have hfold : (n :: ns).foldl (findStep r) (b, low)
              = ns.foldl (findStep r) (some n, loadFactor n) := by
            rw [List.foldl_cons, hstep]
          obtain ⟨ihA, ihB, ihC⟩ := ih (some n) (loadFactor n)
          rw [hfold]
          refine ⟨ihA.trans hlt.le, ?_, ?_⟩
          · intro m hmem hqm
            rcases List.mem_cons.mp hmem with rfl | hmem'
            · exact ihA
            · exact ihB m hmem' hqm
          · rcases ihC with ⟨h1, h2⟩ | ⟨n', hmem', hq', h1, h2, h3⟩
            · exact Or.inr ⟨n, List.mem_cons_self n ns, ⟨hs, hm⟩, h1, h2, by rw [h2]; exact hlt⟩
            · exact Or.inr ⟨n', List.mem_cons_of_mem n hmem', hq', h1, h2,
                h3.trans hlt⟩
        · have hstep : findStep r (b, low) n = (b, low) := by
            unfold findStep
            rw [if_neg (by simp [hs]), if_neg (by simp [hm]), if_neg hlt]
          have hfold : (n :: ns).foldl (findStep r) (b, low)
              = ns.foldl (findStep r) (b, low) := by
            rw [List.foldl_cons, hstep]
          obtain ⟨ihA, ihB, ihC⟩ := ih b low
          rw [hfold]
          refine ⟨ihA, ?_, ?_⟩
          · intro m hmem hqm
            rcases List.mem_cons.mp hmem with rfl | hmem'
            · exact ihA.trans (not_lt.mp hlt)
            · exact ihB m hmem' hqm
          · rcases ihC with h | ⟨n', hmem', hq', h1, h2, h3⟩
            · exact Or.inl h
            · exact Or.inr ⟨n', List.mem_cons_of_mem n hmem', hq', h1, h2, h3⟩
      · have hstep : findStep r (b, low) n = (b, low) := by
          unfold findStep
          unfold nodeQualifies at hq
          by_cases hs : n.status = NodeStatusL.healthy
          · have hm : ¬ nodeMatchesRequirements n r = true := fun hm => hq ⟨hs, hm⟩
            rw [if_neg (by simp [hs]), if_pos (by simp [hm])]
          · rw [if_pos (by simp [hs])]
        have hfold : (n :: ns).foldl (findStep r) (b, low)
            = ns.foldl (findStep r) (b, low) := by
          rw [List.foldl_cons, hstep]
        obtain ⟨ihA, ihB, ihC⟩ := ih b low
        rw [hfold]
        refine ⟨ihA, ?_, ?_⟩
        · intro m hmem hqm
          rcases List.mem_cons.mp hmem with rfl | hmem'
          · exact absurd hqm hq
          · exact ihB m hmem' hqm
        · rcases ihC with h | ⟨n', hmem', hq', h1, h2, h3⟩
          · exact Or.inl h
          · exact Or.inr ⟨n', List.mem_cons_of_mem n hmem', hq', h1, h2, h3⟩

/-- C1 counterexample: a healthy node with no requirements to meet but
`load = capacity = 100` qualifies by the claim, yet `findSuitableNode`
returns nil (its `lowestLoad` starts at 1.0 and only a strictly smaller
load factor is ever taken), so ScheduleTask fails with NoSuitableNode
although a node qualifies — refuting the claimed "if and only if". -/
theorem C1_counterexample :
    nodeQualifies nodeFull reqNone
    ∧ (0 : Int) < nodeFull.capacity
    ∧ findSuitableNode [nodeFull] reqNone = none := by
  refine ⟨⟨rfl, rfl⟩, by norm_num [nodeFull], ?_⟩
  norm_num [findSuitableNode, findStep, loadFactor, nodeMatchesRequirements, nodeFull, reqNone]

/-- C1 (amended): among healthy nodes that match the requirements,
findSuitableNode returns a node only if its load/capacity is strictly
below 1, and such a node has the numerically smallest ratio among all
qualifying nodes; it returns nil — making ScheduleTask fail with
NoSuitableNode — precisely when every qualifying node has ratio ≥ 1 (in
particular when no node qualifies). Capacities are assumed positive, as
`NewNode` fixes them at 100. -/
theorem C1_schedule_selection (nodes : List NodeC) (r : TaskRequirementsL)
    (hcap : ∀ n ∈ nodes, 0 < n.capacity) :
    (∀ n, findSuitableNode nodes r = some n →
        n ∈ nodes ∧ nodeQualifies n r ∧ loadFactor n < 1
          ∧ ∀ m ∈ nodes, nodeQualifies m r → loadFactor n ≤ loadFactor m)
    ∧ (findSuitableNode nodes r = none →
        ∀ m ∈ nodes, nodeQualifies m r → 1 ≤ loadFactor m) := by
  obtain ⟨hA, hB, hC⟩ := findFold_spec r nodes none 1
  constructor
  · intro n hn
    rcases hC with ⟨h1, _⟩ | ⟨n', hmem, hq, h1, h2, h3⟩
    · exact absurd (h1.symm.trans hn) (by simp)
    · obtain rfl : n' = n := Option.some.inj (h1.symm.trans hn)
      refine ⟨hmem, hq, ?_, ?_⟩
      · rw [← h2]
        exact h3
      · intro m hm hqm
        have := hB m hm hqm
        rwa [h2] at this
  · intro hnone m hm hqm
    rcases hC with ⟨_, h2⟩ | ⟨n', _, _, h1, _, _⟩
    · have := hB m hm hqm
      rwa [h2] at this
    · exact absurd (h1.symm.trans hnone) (by simp)

/-- Witness for C1 at the spec's example: A(80/100), B(50/100), C(10/100)
all healthy and matching — the scheduler picks C, whose ratio is below 1
and minimal among the qualifying nodes. -/
theorem C1_schedule_selection_witness :
    findSuitableNode [nodeA, nodeB, nodeC] reqNone = some nodeC
    ∧ loadFactor nodeC < 1
    ∧ ∀ m ∈ [nodeA, nodeB, nodeC], nodeQualifies m reqNone →
        loadFactor nodeC ≤ loadFactor m := by
  have hfind : findSuitableNode [nodeA, nodeB, nodeC] reqNone = some nodeC := by
    norm_num [findSuitableNode, findStep, loadFactor, nodeMatchesRequirements,
      nodeA, nodeB, nodeC, reqNone]
  have h := (C1_schedule_selection [nodeA, nodeB, nodeC] reqNone
    (by intro n hn; fin_cases hn <;> norm_num [nodeA, nodeB, nodeC])).1 _ hfind
  exact ⟨hfind, h.2.2.1, h.2.2.2⟩

end ModuloX
